import Mathlib

/-!
Verification of the memory-consolidation fact store and pipeline.

The definitions below are shallow embeddings of the JavaScript sources:
the `memories` SQLite table becomes a list of rows, the FTS5 index a list
of entries keyed by the primary key `(key, start_time)`, timestamps are
the ISO strings the code actually compares, and scores are rationals.
Effectful boundaries (the LLM, the embedding provider, `JSON.parse`,
`Date.now`, PID liveness) are modelled as explicit outcome parameters.
-/

set_option maxRecDepth 4000

/-- A row of the `memories` table (3-commit-to-db.js `ensureTable`):
key, value, source, start_time, end_time — `end_time = none` marks the
active row.  The primary key is `(key, start_time)`. -/
structure Row where
  key : String
  value : String
  source : String
  start_time : String
  end_time : Option String
deriving DecidableEq, Repr

/-- The `memories` table as a list of rows. -/
abbrev DB := List Row

/-- Whether a row is active (`end_time IS NULL`). -/
def Row.isActive (r : Row) : Bool := r.end_time.isNone

/-- Number of active rows stored under a key: the quantity the spec bounds
by 1 ("for any given key, at most one row has end_time = ∅"). -/
def activeCount (db : DB) (k : String) : Nat :=
  (db.filter (fun r => r.key == k && r.isActive)).length

/-- SQLite `INSERT OR REPLACE` against the primary key `(key, start_time)`:
any row with the same primary key is replaced by the new row. -/
def insertOrReplace (db : DB) (r : Row) : DB :=
  db.filter (fun q => !(q.key == r.key && q.start_time == r.start_time)) ++ [r]

/-- A learning emitted by `extract-agent-learnings.js`: `{key, value, source}`. -/
structure Learning where
  key : String
  value : String
  source : String
deriving DecidableEq, Repr

/-- `storeLearnings` (extract-agent-learnings.js lines 404-433): for each
learning it runs `INSERT OR REPLACE INTO memories (key, value, source,
start_time, end_time) VALUES (?, ?, ?, now, NULL)` — it never closes an
existing active row for the key. -/
def storeLearnings (learnings : List Learning) (db : DB) (now : String) : DB :=
  learnings.foldl
    (fun acc l => insertOrReplace acc ⟨l.key, l.value, l.source, now, none⟩) db

/-- A database holding a single active row for the pattern key, written
earlier than `now`: the state in which the token-frequency pattern for the
Bash tool already has an active value. -/
def c1db : DB :=
  [⟨"agent.pattern.frequent_bash", "Tool Bash used 6 times - indicates primary workflow",
    "auto:session:s1", "2026-01-01T00:00:00.000Z", none⟩]

/-- The learning a later session extracts for the very same key. -/
def c1learning : Learning :=
  ⟨"agent.pattern.frequent_bash", "Tool Bash used 9 times - indicates primary workflow",
    "auto:session:s2"⟩

/-- An entry of the FTS5 index `memories_fts`.  The code addresses entries
by the indexed row's rowid; here the surrogate is the row's primary key
`(key, start_time)`, which is what `getRowid` resolves the rowid from. -/
structure FtsEntry where
  rid_key : String
  rid_start : String
  key : String
  value : String
deriving DecidableEq, Repr

/-- The database file: the `memories` table plus the `memories_fts` index. -/
structure MemState where
  mem : DB
  fts : List FtsEntry
deriving DecidableEq, Repr

/-- `findActive` (3-commit-to-db.js): `SELECT ... FROM memories WHERE
key = ? AND end_time IS NULL`, read with `.get` (first matching row). -/
def findActive (db : DB) (k : String) : Option Row :=
  (db.filter (fun r => r.key == k && r.isActive)).head?

/-- `deactivate` (3-commit-to-db.js): `UPDATE memories SET end_time = ?
WHERE key = ? AND start_time = ?`. -/
def deactivate (db : DB) (endT k startT : String) : DB :=
  db.map (fun r =>
    if r.key == k && r.start_time == startT then { r with end_time := some endT } else r)

/-- `ftsDelete` (3-commit-to-db.js): the FTS5 delete command, addressed by
the indexed row's rowid (its primary-key surrogate). -/
def ftsDelete (fts : List FtsEntry) (ridKey ridStart : String) : List FtsEntry :=
  fts.filter (fun e => !(e.rid_key == ridKey && e.rid_start == ridStart))

/-- A timed fact as read from `timed_facts.jsonl`; `value` is `valStr`,
the stored string form (`fact.value` when a string, `JSON.stringify`
otherwise). -/
structure TimedFact where
  key : String
  value : String
  source : String
  start_time : String
  end_time : Option String
deriving DecidableEq, Repr

/-- The dedup stage's decision, as consumed by `commitFacts`. -/
inductive DedupAction where
  | skip
  | merge (target : String)
  | create
deriving DecidableEq, Repr

/-- Which counter `commitFacts` increments for a fact. -/
inductive Outcome where
  | newFact
  | updated
  | merged
  | skipped
deriving DecidableEq, Repr

/-- The close-old/insert-new sequence shared by the merge and update
branches of `commitFacts`: `ftsDelete` the old row, `deactivate` it at
`fact.start_time`, `INSERT OR REPLACE` the new row under `k`, and index
the new row. -/
def supersedeWith (st : MemState) (k : String) (oldRow : Row) (fact : TimedFact)
    (out : Outcome) : MemState × Outcome :=
  let fts1 := ftsDelete st.fts oldRow.key oldRow.start_time
  let mem1 := deactivate st.mem fact.start_time oldRow.key oldRow.start_time
  let mem2 := insertOrReplace mem1 ⟨k, fact.value, fact.source, fact.start_time, fact.end_time⟩
  (⟨mem2, fts1 ++ [⟨k, fact.start_time, k, fact.value⟩]⟩, out)

/-- The `action === 'create'` (or merge-fallback) branch of the
`commitFacts` loop (3-commit-to-db.js lines 105-129). -/
def createPath (st : MemState) (fact : TimedFact) : MemState × Outcome :=
  match findActive st.mem fact.key with
  | some activeRow =>
    if activeRow.value == fact.value then (st, .skipped)
    else supersedeWith st fact.key activeRow fact .updated
  | none =>
    (⟨insertOrReplace st.mem ⟨fact.key, fact.value, fact.source, fact.start_time, fact.end_time⟩,
      st.fts ++ [⟨fact.key, fact.start_time, fact.key, fact.value⟩]⟩, .newFact)

/-- One iteration of the `commitFacts` loop (3-commit-to-db.js lines
78-130), after the dedup decision for the fact is known. -/
def commitStep (st : MemState) (fact : TimedFact) (decision : DedupAction) : MemState × Outcome :=
  match decision with
  | .skip => (st, .skipped)
  | .merge target =>
    match findActive st.mem target with
    | some targetRow => supersedeWith st target targetRow fact .merged
    | none => createPath st fact
  | .create => createPath st fact

/-- The `memory_store` MCP tool (mcp server, lines 208-273): delete the
first active row for the key from FTS, close every active row for the key
at `now`, `INSERT` the new row with `start_time = now` and `end_time
NULL`, and index it.  The plain `INSERT` throws on a primary-key conflict,
modelled as `none`. -/
def memory_store (st : MemState) (key value now : String) : Option MemState :=
  let fts1 :=
    match findActive st.mem key with
    | some oldRow => ftsDelete st.fts oldRow.key oldRow.start_time
    | none => st.fts
  let mem1 := st.mem.map (fun r =>
    if r.key == key && r.isActive then { r with end_time := some now } else r)
  if mem1.any (fun r => r.key == key && r.start_time == now) then none
  else some ⟨mem1 ++ [⟨key, value, "mcp:memory_store", now, none⟩],
             fts1 ++ [⟨key, now, key, value⟩]⟩

/-- C1: the claim is that every write path preserves "at most one active
row per key".  `commitFacts` and `memory_store` close the previous active
row, but `storeLearnings` inserts with `end_time NULL` unconditionally:
storing a learning for a key that already has an active row (written at a
different `start_time`) leaves two active rows, violating the invariant
the spec requires of all writes.  Evaluated at the concrete failing input. -/
theorem storeLearnings_breaks_single_active_invariant :
    activeCount c1db "agent.pattern.frequent_bash" = 1 ∧
    activeCount (storeLearnings [c1learning] c1db "2026-01-02T00:00:00.000Z")
      "agent.pattern.frequent_bash" = 2 := by
  decide

/-- A row returned by `findActive` carries the queried key and is active. -/
theorem findActive_props {db : DB} {k : String} {a : Row}
    (h : findActive db k = some a) : a.key = k ∧ a.isActive = true := by
  unfold findActive at h
  cases hf : db.filter (fun r => r.key == k && r.isActive) with
  | nil => rw [hf] at h; simp at h
  | cons b t =>
    rw [hf] at h
    simp only [List.head?_cons, Option.some.injEq] at h
    subst h
    have hb : b ∈ db.filter (fun r => r.key == k && r.isActive) := by
      rw [hf]; exact List.mem_cons_self _ _
    have hp := List.of_mem_filter hb
    simp only [Bool.and_eq_true, beq_iff_eq] at hp
    exact hp

/-- A row returned by `findActive` is a row of the table. -/
theorem findActive_mem {db : DB} {k : String} {a : Row}
    (h : findActive db k = some a) : a ∈ db := by
  unfold findActive at h
  cases hf : db.filter (fun r => r.key == k && r.isActive) with
  | nil => rw [hf] at h; simp at h
  | cons b t =>
    rw [hf] at h
    simp only [List.head?_cons, Option.some.injEq] at h
    subst h
    have hb : b ∈ db.filter (fun r => r.key == k && r.isActive) := by
      rw [hf]; exact List.mem_cons_self _ _
    exact List.mem_of_mem_filter hb

/-- C2: whenever a new value supersedes the active row for a key — via the
`commitFacts` update branch or via the MCP `memory_store` — the superseded
row is closed with `end_time` exactly equal to the new row's `start_time`
(no gap and no overlap).  Stated for the case where the new start time
differs from the old row's (the spec keeps start times strictly increasing,
so a supersession never reuses the active row's primary key). -/
theorem supersession_closes_at_new_start_time :
    (∀ (st : MemState) (fact : TimedFact) (a : Row),
      findActive st.mem fact.key = some a →
      a.value ≠ fact.value →
      a.start_time ≠ fact.start_time →
      (((commitStep st fact .create).1.mem.filter
          (fun r => r.key == fact.key && r.start_time == a.start_time)).all
          (fun r => r.end_time == some fact.start_time)) = true
      ∧ ((commitStep st fact .create).1.mem.any
          (fun r => r.key == fact.key && r.start_time == a.start_time &&
            r.end_time == some fact.start_time)) = true
      ∧ ((commitStep st fact .create).1.mem.any
          (fun r => r.key == fact.key && r.start_time == fact.start_time &&
            r.value == fact.value && r.end_time == fact.end_time)) = true) ∧
    (∀ (st : MemState) (key value now : String) (a : Row) (st' : MemState),
      findActive st.mem key = some a →
      (∀ r ∈ st.mem, r.key = key → r.start_time ≠ now) →
      memory_store st key value now = some st' →
      (st'.mem.any (fun r => r.key == key && r.start_time == a.start_time &&
          r.end_time == some now)) = true
      ∧ (st'.mem.any (fun r => r.key == key && r.start_time == now && r.value == value &&
          r.isActive)) = true) := by
  constructor
  · intro st fact a hfa hval hst
    obtain ⟨hak, haact⟩ := findActive_props hfa
    have hmem : a ∈ st.mem := findActive_mem hfa
    have hbeq : (a.value == fact.value) = false := by
      simp [beq_eq_false_iff_ne, hval]
    simp only [commitStep, createPath, hfa, hbeq, if_false, supersedeWith,
      insertOrReplace, deactivate, Bool.false_eq_true]
    refine ⟨?_, ?_, ?_⟩
    · simp only [List.all_eq_true]
      intro r hr
      rw [List.mem_filter] at hr
      obtain ⟨hr2, hmatch⟩ := hr
      simp only [List.mem_append, List.mem_filter, List.mem_map,
        List.mem_singleton] at hr2
      rcases hr2 with ⟨⟨q, hq, hfq⟩, hpk⟩ | hnew
      · by_cases hc : (q.key == a.key && q.start_time == a.start_time) = true
        · rw [if_pos hc] at hfq
          subst hfq
          simp
        · rw [if_neg hc] at hfq
          subst hfq
          exfalso
          apply hc
          simp only [Bool.and_eq_true, beq_iff_eq] at hmatch ⊢
          exact ⟨hmatch.1.trans hak.symm, hmatch.2⟩
      · subst hnew
        exfalso
        simp only [Bool.and_eq_true, beq_iff_eq] at hmatch
        exact hst (hmatch.2.symm)
    · simp only [List.any_eq_true]
      refine ⟨{ a with end_time := some fact.start_time }, ?_, ?_⟩
      · apply List.mem_append_left
        rw [List.mem_filter]
        constructor
        · rw [List.mem_map]
          refine ⟨a, hmem, ?_⟩
          rw [if_pos]
          simp
        · simp only [Bool.not_eq_true']
          simp [hak, hst]
      · simp [hak]
    · simp only [List.any_eq_true]
      refine ⟨⟨fact.key, fact.value, fact.source, fact.start_time, fact.end_time⟩, ?_, ?_⟩
      · apply List.mem_append_right
        simp
      · simp
  · intro st key value now a st' hfa hfresh hstore
    obtain ⟨hak, haact⟩ := findActive_props hfa
    have hmem : a ∈ st.mem := findActive_mem hfa
    have hcond : (st.mem.map (fun r =>
        if r.key == key && r.isActive then { r with end_time := some now } else r)).any
        (fun r => r.key == key && r.start_time == now) = false := by
      rw [List.any_eq_false]
      intro r hr
      rw [List.mem_map] at hr
      obtain ⟨q, hq, hfq⟩ := hr
      by_cases hc : (q.key == key && q.isActive) = true
      · rw [if_pos hc] at hfq
        subst hfq
        simp only [Bool.and_eq_true, beq_iff_eq, not_and]
        intro hk hnow
        exact hfresh q hq hk hnow
      · rw [if_neg hc] at hfq
        subst hfq
        simp only [Bool.and_eq_true, beq_iff_eq, not_and]
        intro hk hnow
        exact hfresh q hq hk hnow
    rw [memory_store] at hstore
    simp only [hcond, Bool.false_eq_true, if_false] at hstore
    have hst' := hstore
    injection hst' with hst'eq
    constructor
    · rw [← hst'eq]
      simp only [List.any_eq_true]
      refine ⟨{ a with end_time := some now }, ?_, ?_⟩
      · apply List.mem_append_left
        rw [List.mem_map]
        refine ⟨a, hmem, ?_⟩
        rw [if_pos]
        simp [hak, haact]
      · simp [hak]
    · rw [← hst'eq]
      simp only [List.any_eq_true]
      refine ⟨⟨key, value, "mcp:memory_store", now, none⟩, ?_, ?_⟩
      · apply List.mem_append_right
        simp
      · simp [Row.isActive]

/-- Store state for exercising the supersession paths: one active row. -/
def c2st : MemState :=
  ⟨[⟨"user.city", "Taipei", "session:a", "2026-01-01T10:00:00Z", none⟩], []⟩

/-- The incoming fact carrying the new value for the same key. -/
def c2fact : TimedFact :=
  ⟨"user.city", "Hsinchu", "session:b", "2026-01-02T09:00:00Z", none⟩

/-- The active row of `c2st`. -/
def c2row : Row := ⟨"user.city", "Taipei", "session:a", "2026-01-01T10:00:00Z", none⟩

/-- The state `memory_store` produces from `c2st`. -/
def c2st2 : MemState :=
  (memory_store c2st "user.city" "Hsinchu" "2026-01-03T00:00:00Z").getD ⟨[], []⟩

/-- Witness for C2 at a concrete supersession on both write paths. -/
theorem supersession_closes_at_new_start_time_witness :
    ((((commitStep c2st c2fact .create).1.mem.filter
        (fun r => r.key == c2fact.key && r.start_time == c2row.start_time)).all
        (fun r => r.end_time == some c2fact.start_time)) = true
     ∧ ((commitStep c2st c2fact .create).1.mem.any
        (fun r => r.key == c2fact.key && r.start_time == c2row.start_time &&
          r.end_time == some c2fact.start_time)) = true
     ∧ ((commitStep c2st c2fact .create).1.mem.any
        (fun r => r.key == c2fact.key && r.start_time == c2fact.start_time &&
          r.value == c2fact.value && r.end_time == c2fact.end_time)) = true)
    ∧ ((c2st2.mem.any (fun r => r.key == "user.city" &&
          r.start_time == c2row.start_time && r.end_time == some "2026-01-03T00:00:00Z")) = true
     ∧ (c2st2.mem.any (fun r => r.key == "user.city" &&
          r.start_time == "2026-01-03T00:00:00Z" && r.value == "Hsinchu" && r.isActive)) = true) := by
  refine ⟨?_, ?_⟩
  · exact supersession_closes_at_new_start_time.1 c2st c2fact c2row
      (by decide) (by decide) (by decide)
  · exact supersession_closes_at_new_start_time.2 c2st "user.city" "Hsinchu"
      "2026-01-03T00:00:00Z" c2row c2st2 (by decide) (by decide) (by decide)

/-- Inserting an active row for key `k` into a table with no active row for
`k` leaves exactly that row active for `k`. -/
theorem filter_insertOrReplace_active (db : DB) (r : Row) (k : String)
    (hfe : db.filter (fun x => x.key == k && x.isActive) = [])
    (hk : r.key = k) (hact : r.isActive = true) :
    (insertOrReplace db r).filter (fun x => x.key == k && x.isActive) = [r] := by
  unfold insertOrReplace
  rw [List.filter_append]
  have hsub : List.Sublist
      ((db.filter (fun q => !(q.key == r.key && q.start_time == r.start_time))).filter
        (fun x => x.key == k && x.isActive))
      (db.filter (fun x => x.key == k && x.isActive)) :=
    List.Sublist.filter _ (List.filter_sublist db)
  rw [hfe] at hsub
  rw [List.sublist_nil.mp hsub]
  simp [hk, hact]

/-- C3: with the dedup stage returning `create`, upserting a fact whose key
already has an active row with the identical stored value yields `skip`:
the state (rows and FTS index) is returned untouched and the fact counts
as skipped.  In particular a fresh upsert of an open fact followed by an
identical upsert with a later timestamp yields `skip` and leaves a single
active row for the key. -/
theorem upsert_identical_value_skips :
    (∀ (st : MemState) (fact : TimedFact) (a : Row),
      findActive st.mem fact.key = some a →
      a.value = fact.value →
      commitStep st fact .create = (st, .skipped)) ∧
    (∀ (st : MemState) (fact fact2 : TimedFact),
      findActive st.mem fact.key = none →
      fact.end_time = none →
      fact2.key = fact.key →
      fact2.value = fact.value →
      (commitStep st fact .create).2 = .newFact ∧
      commitStep (commitStep st fact .create).1 fact2 .create
        = ((commitStep st fact .create).1, .skipped) ∧
      activeCount (commitStep st fact .create).1.mem fact.key = 1) := by
  constructor
  · intro st fact a hfa hv
    have hbeq : (a.value == fact.value) = true := by simp [hv]
    simp [commitStep, createPath, hfa, hbeq]
  · intro st fact fact2 hnone hend hk2 hv2
    have hfe : st.mem.filter (fun r => r.key == fact.key && r.isActive) = [] := by
      unfold findActive at hnone
      exact List.head?_eq_none_iff.mp hnone
    have hstep1 : commitStep st fact .create =
        (⟨insertOrReplace st.mem ⟨fact.key, fact.value, fact.source, fact.start_time, fact.end_time⟩,
          st.fts ++ [⟨fact.key, fact.start_time, fact.key, fact.value⟩]⟩, .newFact) := by
      simp [commitStep, createPath, hnone]
    have hfilter1 : (insertOrReplace st.mem
          ⟨fact.key, fact.value, fact.source, fact.start_time, fact.end_time⟩).filter
          (fun r => r.key == fact.key && r.isActive)
        = [⟨fact.key, fact.value, fact.source, fact.start_time, fact.end_time⟩] :=
      filter_insertOrReplace_active st.mem _ fact.key hfe rfl (by simp [Row.isActive, hend])
    refine ⟨by rw [hstep1], ?_, ?_⟩
    · rw [hstep1]
      have hfa2 : findActive (insertOrReplace st.mem
            ⟨fact.key, fact.value, fact.source, fact.start_time, fact.end_time⟩) fact2.key
          = some ⟨fact.key, fact.value, fact.source, fact.start_time, fact.end_time⟩ := by
        unfold findActive
        rw [hk2, hfilter1]
        rfl
      have hveq : ((⟨fact.key, fact.value, fact.source, fact.start_time,
          fact.end_time⟩ : Row).value == fact2.value) = true := by
        simp [hv2]
      simp [commitStep, createPath, hfa2, hveq]
    · rw [hstep1]
      unfold activeCount
      simp only
      rw [hfilter1]
      rfl

/-- A state whose only row is active with the value about to be re-upserted. -/
def c3st : MemState :=
  ⟨[⟨"user.name", "Jerry", "session:a", "2026-01-01T10:00:00Z", none⟩], []⟩

/-- First upsert of the fact (open interval). -/
def c3fact0 : TimedFact := ⟨"user.name", "Jerry", "session:a", "2026-01-01T10:00:00Z", none⟩

/-- The identical fact re-extracted with a later timestamp. -/
def c3fact : TimedFact := ⟨"user.name", "Jerry", "session:b", "2026-01-02T10:00:00Z", none⟩

/-- Witness for C3: a concrete identical-value skip and the concrete
upsert-upsert idempotence law. -/
theorem upsert_identical_value_skips_witness :
    (commitStep c3st c3fact .create = (c3st, .skipped)) ∧
    ((commitStep ⟨[], []⟩ c3fact0 .create).2 = .newFact ∧
     commitStep (commitStep ⟨[], []⟩ c3fact0 .create).1 c3fact .create
       = ((commitStep ⟨[], []⟩ c3fact0 .create).1, .skipped) ∧
     activeCount (commitStep ⟨[], []⟩ c3fact0 .create).1.mem c3fact0.key = 1) := by
  constructor
  · exact upsert_identical_value_skips.1 c3st c3fact
      ⟨"user.name", "Jerry", "session:a", "2026-01-01T10:00:00Z", none⟩ (by decide) (by decide)
  · exact upsert_identical_value_skips.2 ⟨[], []⟩ c3fact0 c3fact
      (by decide) (by decide) (by decide) (by decide)

/-- `CATEGORY_ALIASES` (2-align-temporally.js): plural-to-singular map. -/
def CATEGORY_ALIASES : String → Option String
  | "agents" => some "agent"
  | "models" => some "model"
  | "channels" => some "channel"
  | "bindings" => some "binding"
  | "plugins" => some "plugin"
  | "commands" => some "command"
  | "tools" => some "tool"
  | "tasks" => some "task"
  | "projects" => some "project"
  | "workflows" => some "workflow"
  | "teams" => some "team"
  | "users" => some "user"
  | "preferences" => some "preference"
  | "locations" => some "location"
  | "environments" => some "environment"
  | "configs" => some "config"
  | "systems" => some "system"
  | "skills" => some "skill"
  | "errors" => some "error"
  | "conversations" => some "conversation"
  | "messages" => some "message"
  | "builds" => some "build"
  | _ => none

/-- Split a character list at the first dot (`key.indexOf` + `slice`). -/
def breakAtDot : List Char → Option (List Char × List Char)
  | [] => none
  | c :: rest =>
    if c = '.' then some ([], rest)
    else
      match breakAtDot rest with
      | none => none
      | some (p, r) => some (c :: p, r)

/-- `normalizeKey` (2-align-temporally.js): alias the category before the
first dot; a key without a dot is returned unchanged. -/
def normalizeKey (key : String) : String :=
  match breakAtDot key.toList with
  | none => key
  | some (p, r) =>
    let pre := String.mk p
    String.mk (((CATEGORY_ALIASES pre).getD pre).toList ++ '.' :: r)

/-- A raw fact read from `facts.jsonl`.  `value` is the canonical
`JSON.stringify` form the aligner compares for deduplication. -/
structure RawFact where
  key : String
  value : String
  source : String
  message_timestamp : String
deriving DecidableEq, Repr

/-- Append a fact to its key's group, preserving first-seen group order
(JS object property insertion order). -/
def addToGroup (k : String) (f : RawFact) :
    List (String × List RawFact) → List (String × List RawFact)
  | [] => [(k, [f])]
  | (k2, g) :: rest =>
    if k2 == k then (k2, g ++ [f]) :: rest else (k2, g) :: addToGroup k f rest

/-- Grouping phase of `alignFacts`. -/
def groupByKey (facts : List RawFact) : List (String × List RawFact) :=
  facts.foldl (fun acc f => addToGroup f.key f acc) []

/-- Lexicographic comparison on character lists: the order
`localeCompare` induces on these ASCII timestamp strings. -/
def charListLt : List Char → List Char → Bool
  | [], [] => false
  | [], _ :: _ => true
  | _ :: _, [] => false
  | a :: as, b :: bs => if a < b then true else if b < a then false else charListLt as bs

/-- String comparison used by the timestamp sort. -/
def strLt (a b : String) : Bool := charListLt a.toList b.toList

/-- Stable insertion for the ascending `message_timestamp` sort. -/
def insertByTs (f : RawFact) : List RawFact → List RawFact
  | [] => [f]
  | g :: rest =>
    if strLt f.message_timestamp g.message_timestamp then f :: g :: rest
    else g :: insertByTs f rest

/-- `entries.sort` by `message_timestamp` ascending (stable). -/
def sortByTs (l : List RawFact) : List RawFact :=
  l.foldl (fun acc f => insertByTs f acc) []

/-- Dedup phase of `alignFacts` as written: a `seenValues` set accumulated
over the whole group; an entry is dropped when its value was seen anywhere
earlier in the group, not merely in the immediately preceding entry. -/
def dedupeByValue (seen : List String) : List RawFact → List RawFact
  | [] => []
  | f :: rest =>
    if seen.contains f.value then dedupeByValue seen rest
    else f :: dedupeByValue (f.value :: seen) rest

/-- Interval assignment: each entry starts at its own timestamp and ends at
the next surviving entry's timestamp (`none` for the last). -/
def assignTimes : List RawFact → List TimedFact
  | [] => []
  | [f] => [⟨f.key, f.value, f.source, f.message_timestamp, none⟩]
  | f :: g :: rest =>
    ⟨f.key, f.value, f.source, f.message_timestamp, some g.message_timestamp⟩
      :: assignTimes (g :: rest)

/-- `alignFacts` (2-align-temporally.js lines 161-202): normalize keys,
group, sort each group by timestamp, dedupe by value, assign intervals. -/
def alignFacts (facts : List RawFact) : List TimedFact :=
  (groupByKey (facts.map (fun f => { f with key := normalizeKey f.key }))).flatMap
    (fun kg => assignTimes (dedupeByValue [] (sortByTs kg.2)))

/-- The spec-level reading of the amended dedup rule: keep an entry exactly
when no earlier entry of the (sorted) group carries the same canonical
value — i.e. keep the first occurrence of each value. -/
def keepFirstByValue : List RawFact → List RawFact
  | [] => []
  | f :: rest => f :: keepFirstByValue (rest.filter (fun g => !(g.value == f.value)))
termination_by l => l.length
decreasing_by
  simp only [List.length_cons]
  exact Nat.lt_succ_of_le (List.length_filter_le _ _)


/-- The seen-set dedup equals first-occurrence filtering, generalized over
the accumulated set. -/
theorem dedupeByValue_eq_keepFirst (l : List RawFact) :
    ∀ seen : List String,
      dedupeByValue seen l
        = keepFirstByValue (l.filter (fun f => !(seen.contains f.value))) := by
  induction l with
  | nil => intro seen; simp [dedupeByValue, keepFirstByValue]
  | cons f rest ih =>
    intro seen
    by_cases hc : seen.contains f.value = true
    · rw [List.filter_cons]
      simp only [hc, Bool.not_true, Bool.false_eq_true, if_false]
      rw [dedupeByValue]
      simp only [hc, if_true]
      exact ih seen
    · rw [List.filter_cons]
      rw [Bool.not_eq_true] at hc
      simp only [hc, Bool.not_false, if_true]
      rw [dedupeByValue]
      simp only [hc, Bool.false_eq_true, if_false]
      rw [keepFirstByValue]
      rw [ih (f.value :: seen)]
      congr 1
      rw [List.filter_filter]
      have hp : List.filter (fun g => !((f.value :: seen).contains g.value)) rest
          = List.filter (fun a => !(a.value == f.value) && !(seen.contains a.value)) rest := by
        apply List.filter_congr
        intro g _
        simp only [List.contains_cons, Bool.not_or]
      rw [hp]

/-- Input group for the alignment counterexample: the value returns after an
intervening different value. -/
def c4facts : List RawFact :=
  [⟨"user.city", "Taipei", "session:a", "2026-01-01T00:00:00Z"⟩,
   ⟨"user.city", "Hsinchu", "session:b", "2026-01-02T00:00:00Z"⟩,
   ⟨"user.city", "Taipei", "session:c", "2026-01-03T00:00:00Z"⟩]

/-- C4 counterexample: the claim predicts the third entry (value `Taipei`,
differing from its immediate predecessor `Hsinchu`) is retained, giving
three intervals.  The code's seen-set drops it: only two intervals survive
and none starts at the third timestamp. -/
theorem alignFacts_drops_nonadjacent_repeat :
    alignFacts c4facts =
      [⟨"user.city", "Taipei", "session:a", "2026-01-01T00:00:00Z",
          some "2026-01-02T00:00:00Z"⟩,
       ⟨"user.city", "Hsinchu", "session:b", "2026-01-02T00:00:00Z", none⟩]
    ∧ (alignFacts c4facts).all (fun t => !(t.start_time == "2026-01-03T00:00:00Z")) = true := by
  constructor
  · rfl
  · decide

/-- C4 amended: within each key group sorted ascending, an entry is dropped
exactly when some earlier entry of the group — adjacent or not — carries
the same canonical value: the aligner keeps the first occurrence of each
value and drops every later repeat. -/
theorem alignFacts_keeps_first_occurrence_of_value (facts : List RawFact) :
    alignFacts facts
      = (groupByKey (facts.map (fun f => { f with key := normalizeKey f.key }))).flatMap
          (fun kg => assignTimes (keepFirstByValue (sortByTs kg.2))) := by
  unfold alignFacts
  congr 1
  funext kg
  rw [dedupeByValue_eq_keepFirst]
  congr 1
  simp

/-- `VECTOR_THRESHOLD` (hybrid-search.js): minimum vector similarity. -/
def VECTOR_THRESHOLD : ℚ := 3/10

/-- `BM25_BONUS` (hybrid-search.js): boost factor for FTS5 matches. -/
def BM25_BONUS : ℚ := 3/20

/-- A vector-search result row (`vectorSearch` output). -/
structure VectorHit where
  rowid : Nat
  key : String
  value : String
  start_time : String
  vectorScore : ℚ
deriving DecidableEq, Repr

/-- A BM25 result row (`bm25Search` output, score normalized to `[0,1]`). -/
structure Bm25Hit where
  rowid : Nat
  key : String
  value : String
  start_time : String
  bm25Score : ℚ
deriving DecidableEq, Repr

/-- An entry of `resultMap` during the merge. -/
structure MergedRow where
  rowid : Nat
  key : String
  value : String
  start_time : String
  vectorScore : ℚ
  bm25Score : ℚ
  bm25Hit : Bool
deriving DecidableEq, Repr

/-- A scored output row of `mergeResults`. -/
structure ScoredRow where
  key : String
  value : String
  start_time : String
  score : ℚ
  vectorScore : ℚ
  bm25Score : ℚ
  bm25Hit : Bool
deriving DecidableEq, Repr

/-- JS `Map.set` keyed by rowid: update in place, else append. -/
def mapSet (m : List MergedRow) (r : MergedRow) : List MergedRow :=
  if m.any (fun x => x.rowid == r.rowid) then
    m.map (fun x => if x.rowid == r.rowid then r else x)
  else m ++ [r]

/-- The BM25 merge step of `mergeResults`: boost an existing entry, or add
a BM25-only entry with the `0.5` baseline vector score. -/
def mergeBm25 (m : List MergedRow) (b : Bm25Hit) : List MergedRow :=
  if m.any (fun x => x.rowid == b.rowid) then
    m.map (fun x =>
      if x.rowid == b.rowid then { x with bm25Score := b.bm25Score, bm25Hit := true } else x)
  else m ++ [⟨b.rowid, b.key, b.value, b.start_time, 1/2, b.bm25Score, true⟩]

/-- `mergeResults` (hybrid-search.js lines 140-200): seed the map with the
vector results, fold in the BM25 results, then score every entry with the
weighted combination plus the conditional BM25 bonus. -/
def mergeResults (vectorResults : List VectorHit) (bm25Results : List Bm25Hit)
    (vectorWeight bm25Weight : ℚ) : List ScoredRow :=
  let m0 := vectorResults.foldl
    (fun m r => mapSet m ⟨r.rowid, r.key, r.value, r.start_time, r.vectorScore, 0, false⟩) []
  let m1 := bm25Results.foldl mergeBm25 m0
  m1.map (fun r =>
    let base := r.vectorScore * vectorWeight + r.bm25Score * bm25Weight
    let score :=
      if r.bm25Hit ∧ VECTOR_THRESHOLD < r.vectorScore then base + r.vectorScore * BM25_BONUS
      else base
    ⟨r.key, r.value, r.start_time, score, r.vectorScore, r.bm25Score, r.bm25Hit⟩)

/-- C5 counterexample: a row returned by BM25 alone (`score 1`, no vector
hit) is merged with the `0.5` baseline vector score and the `bm25Hit`
flag, so it receives the `BM25_BONUS` boost: its combined score is
`0.725 = 0.7·0.5 + 0.3·1 + 0.15·0.5`, not the bonus-free `0.65` the claim
("a row returned by only one of the two methods receives no bonus")
predicts. -/
theorem mergeResults_bonus_on_bm25_only_row :
    (mergeResults [] [⟨1, "secret.GOG_KEYRING_PASSWORD", "redacted", "2026-01-01", 1⟩]
        (7/10) (3/10)).map (fun r => r.score) = [29/40]
    ∧ (29/40 : ℚ) ≠ (7/10) * (1/2) + (3/10) * 1
    ∧ (29/40 : ℚ) = (7/10) * (1/2) + (3/10) * 1 + (3/20) * (1/2) := by
  refine ⟨?_, by norm_num, by norm_num⟩
  simp only [mergeResults, List.foldl_nil, List.foldl_cons, mergeBm25, List.any_nil,
    Bool.false_eq_true, if_false, List.nil_append, List.map_cons, List.map_nil]
  norm_num [VECTOR_THRESHOLD, BM25_BONUS]

/-- Membership in a fold is governed by a step-preserved invariant. -/
theorem foldl_mem_invariant {α β : Type} (P : α → Prop) (step : List α → β → List α)
    (hstep : ∀ m b x, (∀ y ∈ m, P y) → x ∈ step m b → P x) :
    ∀ (l : List β) (m : List α), (∀ y ∈ m, P y) → ∀ x ∈ l.foldl step m, P x := by
  intro l
  induction l with
  | nil => intro m hm x hx; exact hm x hx
  | cons b rest ih =>
    intro m hm x hx
    exact ih (step m b) (fun y hy => hstep m b y hm hy) x hx

/-- An element of `mapSet m r` is `r` or comes from `m`. -/
theorem mem_mapSet {m : List MergedRow} {r x : MergedRow} (hx : x ∈ mapSet m r) :
    x = r ∨ x ∈ m := by
  unfold mapSet at hx
  by_cases h : m.any (fun y => y.rowid == r.rowid) = true
  · rw [if_pos h] at hx
    rw [List.mem_map] at hx
    obtain ⟨y, hy, hfy⟩ := hx
    by_cases hc : (y.rowid == r.rowid) = true
    · rw [if_pos hc] at hfy; exact Or.inl hfy.symm
    · rw [if_neg hc] at hfy; exact Or.inr (hfy ▸ hy)
  · rw [if_neg h] at hx
    rcases List.mem_append.mp hx with h1 | h1
    · exact Or.inr h1
    · exact Or.inl (List.mem_singleton.mp h1)

/-- C5 amended: every merged row's combined score is
`vectorScore·vector_weight + bm25Score·bm25_weight`, with the extra
`BM25_BONUS·vectorScore` added exactly when the row's `bm25Hit` flag is set
and its `vectorScore` is strictly above `VECTOR_THRESHOLD`; a row found
only by vector search keeps `bm25Hit = false` and `bm25Score = 0` (never
bonused), while a row found only by BM25 gets `bm25Hit = true` and the
baseline `vectorScore = 1/2 > VECTOR_THRESHOLD` — so, contrary to the
original claim, BM25-only rows always receive the bonus. -/
theorem mergeResults_score_formula (v : List VectorHit) (b : List Bm25Hit) (vw bw : ℚ) :
    (∀ r ∈ mergeResults v b vw bw,
      r.score = r.vectorScore * vw + r.bm25Score * bw +
        (if r.bm25Hit ∧ VECTOR_THRESHOLD < r.vectorScore then r.vectorScore * BM25_BONUS else 0))
    ∧ (∀ r ∈ mergeResults v [] vw bw, r.bm25Hit = false ∧ r.bm25Score = 0)
    ∧ (∀ r ∈ mergeResults [] b vw bw, r.bm25Hit = true ∧ r.vectorScore = 1/2 ∧
        r.score = r.vectorScore * vw + r.bm25Score * bw + r.vectorScore * BM25_BONUS) := by
  have hvecInv : ∀ x ∈ (v.foldl (fun m r =>
        mapSet m ⟨r.rowid, r.key, r.value, r.start_time, r.vectorScore, 0, false⟩) []),
      x.bm25Hit = false ∧ x.bm25Score = 0 := by
    refine foldl_mem_invariant (fun x : MergedRow => x.bm25Hit = false ∧ x.bm25Score = 0) _ ?_ v [] ?_
    · intro m r x hm hx
      rcases mem_mapSet hx with h | h
      · subst h; exact ⟨rfl, rfl⟩
      · exact hm x h
    · intro y hy; cases hy
  have hbmInv : ∀ x ∈ (b.foldl mergeBm25 []),
      x.bm25Hit = true ∧ x.vectorScore = 1/2 := by
    refine foldl_mem_invariant (fun x : MergedRow => x.bm25Hit = true ∧ x.vectorScore = 1/2) _ ?_ b [] ?_
    · intro m bh x hm hx
      unfold mergeBm25 at hx
      by_cases h : m.any (fun y => y.rowid == bh.rowid) = true
      · rw [if_pos h] at hx
        rw [List.mem_map] at hx
        obtain ⟨y, hy, hfy⟩ := hx
        by_cases hc : (y.rowid == bh.rowid) = true
        · rw [if_pos hc] at hfy
          subst hfy
          exact ⟨rfl, (hm y hy).2⟩
        · rw [if_neg hc] at hfy
          exact hfy ▸ hm y hy
      · rw [if_neg h] at hx
        rcases List.mem_append.mp hx with h1 | h1
        · exact hm x h1
        · rw [List.mem_singleton.mp h1]
          exact ⟨rfl, rfl⟩
    · intro y hy; cases hy
  refine ⟨?_, ?_, ?_⟩
  · intro r hr
    unfold mergeResults at hr
    rw [List.mem_map] at hr
    obtain ⟨x, hx, hfx⟩ := hr
    subst hfx
    dsimp only
    by_cases hc : x.bm25Hit = true ∧ VECTOR_THRESHOLD < x.vectorScore
    · rw [if_pos hc, if_pos hc]
    · rw [if_neg hc, if_neg hc]
      ring
  · intro r hr
    unfold mergeResults at hr
    simp only [List.foldl_nil] at hr
    rw [List.mem_map] at hr
    obtain ⟨x, hx, hfx⟩ := hr
    subst hfx
    exact hvecInv x hx
  · intro r hr
    unfold mergeResults at hr
    simp only [List.foldl_nil] at hr
    rw [List.mem_map] at hr
    obtain ⟨x, hx, hfx⟩ := hr
    obtain ⟨hhit, hvs⟩ := hbmInv x hx
    subst hfx
    dsimp only
    refine ⟨hhit, hvs, ?_⟩
    have hcond : x.bm25Hit = true ∧ VECTOR_THRESHOLD < x.vectorScore := by
      refine ⟨hhit, ?_⟩
      rw [hvs]
      norm_num [VECTOR_THRESHOLD]
    rw [if_pos hcond]

/-- The BM25-only hit used to exercise the merge formula. -/
def c5hit : Bm25Hit := ⟨1, "secret.GOG_KEYRING_PASSWORD", "redacted", "2026-01-01", 1⟩

/-- The merged output row for `c5hit`: baseline vector score and bonus. -/
def c5row : ScoredRow := ⟨"secret.GOG_KEYRING_PASSWORD", "redacted", "2026-01-01", 29/40, 1/2, 1, true⟩

/-- Witness for the amended C5 formula at a concrete BM25-only row. -/
theorem mergeResults_score_formula_witness :
    c5row.bm25Hit = true ∧ c5row.vectorScore = 1/2 ∧
      c5row.score = c5row.vectorScore * (7/10) + c5row.bm25Score * (3/10)
        + c5row.vectorScore * BM25_BONUS := by
  have hmem : c5row ∈ mergeResults [] [c5hit] (7/10) (3/10) := by
    simp only [mergeResults, List.foldl_nil, List.foldl_cons, mergeBm25, List.any_nil,
      Bool.false_eq_true, if_false, List.nil_append, List.map_cons, List.map_nil,
      List.mem_singleton, c5row, c5hit, ScoredRow.mk.injEq]
    norm_num [VECTOR_THRESHOLD, BM25_BONUS]
  exact (mergeResults_score_formula [] [c5hit] (7/10) (3/10)).2.2 c5row hmem

/-- The decision object `callGemmaForDedup` resolves with: the `action`
string plus optional `target`/`reason` fields of the parsed JSON. -/
structure GemmaDecision where
  action : String
  target : Option String
  reason : Option String
deriving DecidableEq, Repr

/-- What the model's response body yields after `JSON.parse` and the
first-brace/last-brace extraction (dedup-decision.js lines 83-97). -/
inductive ResponseParse where
  | outerParseFail
  | noJsonObject
  | innerParseFail
  | ok (d : GemmaDecision)
deriving DecidableEq, Repr

/-- The observable outcome of the HTTPS call to the Gemma API. -/
inductive GemmaTransport where
  | noApiKey
  | timeout
  | requestError
  | response (body : ResponseParse)
deriving DecidableEq, Repr

/-- `callGemmaForDedup` (dedup-decision.js lines 63-109): every failure
mode resolves with an `action: 'create'` decision; only a successfully
parsed JSON object is passed through. -/
def callGemmaForDedup : GemmaTransport → GemmaDecision
  | .noApiKey => ⟨"create", none, some "API key not available"⟩
  | .timeout => ⟨"create", none, some "API timeout"⟩
  | .requestError => ⟨"create", none, some "API request failed"⟩
  | .response .outerParseFail => ⟨"create", none, some "JSON parse failed"⟩
  | .response .noJsonObject => ⟨"create", none, some "No JSON in response"⟩
  | .response .innerParseFail => ⟨"create", none, some "JSON parse failed"⟩
  | .response (.ok d) => d

/-- Outcome of `embedTexts` for the candidate (try/catch in
dedup-decision.js lines 128-135). -/
inductive EmbedOutcome where
  | failure
  | ok
deriving DecidableEq, Repr

/-- A similar active fact returned by `findSimilar`. -/
structure SimilarFact where
  key : String
  value : String
  similarity : ℚ
deriving DecidableEq, Repr

/-- `dedupDecision` (dedup-decision.js lines 117-161): disabled dedup,
embedding failure, or no similar facts short-circuit to `create`; otherwise
the Gemma call decides.  `enabled` is `config.dedup?.enabled`, `emb` the
embedding outcome, `similar` the `findSimilar` result for the candidate,
and `llm` the transport outcome of the Gemma call. -/
def dedupDecision (enabled : Bool) (emb : EmbedOutcome) (similar : List SimilarFact)
    (llm : GemmaTransport) : GemmaDecision :=
  if !enabled then ⟨"create", none, some "dedup disabled"⟩
  else match emb with
  | .failure => ⟨"create", none, some "embed failed"⟩
  | .ok =>
    if similar.isEmpty then ⟨"create", none, some "no similar facts"⟩
    else callGemmaForDedup llm

/-- A transport outcome that represents a failure of the dedup stage. -/
def GemmaTransport.isFailure : GemmaTransport → Bool
  | .noApiKey => true
  | .timeout => true
  | .requestError => true
  | .response .outerParseFail => true
  | .response .noJsonObject => true
  | .response .innerParseFail => true
  | .response (.ok _) => false

/-- C6: any failure of the dedup stage — embedding error, missing API key,
HTTP transport error, LLM timeout, or an unparseable response — yields the
decision `action = 'create'`: the stage never drops a fact on failure. -/
theorem dedupDecision_falls_back_to_create (enabled : Bool) (emb : EmbedOutcome)
    (similar : List SimilarFact) (llm : GemmaTransport)
    (hfail : emb = .failure ∨ llm.isFailure = true) :
    (dedupDecision enabled emb similar llm).action = "create" := by
  cases enabled with
  | false => rfl
  | true =>
    cases emb with
    | failure => rfl
    | ok =>
      rcases hfail with h | h
      · exact absurd h (by simp)
      · cases hs : similar.isEmpty with
        | true => simp [dedupDecision, hs]
        | false =>
          simp only [dedupDecision, hs, Bool.not_true, Bool.false_eq_true, if_false]
          cases llm with
          | noApiKey => rfl
          | timeout => rfl
          | requestError => rfl
          | response body =>
            cases body with
            | outerParseFail => rfl
            | noJsonObject => rfl
            | innerParseFail => rfl
            | ok d => exact absurd h (by simp [GemmaTransport.isFailure])

/-- Witness for C6: a timed-out Gemma call on a candidate with one similar
fact still produces `create`. -/
theorem dedupDecision_falls_back_to_create_witness :
    (EmbedOutcome.ok = EmbedOutcome.failure ∨ GemmaTransport.isFailure .timeout = true) ∧
    (dedupDecision true .ok [⟨"user.editor", "vscode", 9/10⟩] .timeout).action = "create" :=
  ⟨Or.inr rfl,
    dedupDecision_falls_back_to_create true .ok [⟨"user.editor", "vscode", 9/10⟩] .timeout
      (Or.inr rfl)⟩

/-- A JavaScript field value as the validator observes it. -/
inductive JSVal where
  | undef
  | null
  | str (s : String)
  | other
deriving DecidableEq, Repr

/-- An element of the JSON array the extractor parsed: either a falsy value
(fails the `f &&` guard) or an object with `key` and `value` fields
(`undef` when the property is absent). -/
inductive JElem where
  | falsy
  | obj (key : JSVal) (value : JSVal)
deriving DecidableEq, Repr

/-- The validation predicate of `callGemini` (part_008 line 131):
`f && typeof f.key === 'string' && f.value !== undefined`. -/
def keepFact : JElem → Bool
  | .falsy => false
  | .obj k v =>
    (match k with | .str _ => true | _ => false) &&
    (match v with | .undef => false | _ => true)

/-- Outcome of the `gemini` CLI invocation after bracket extraction. -/
inductive GeminiOutcome where
  | nonZeroStatus
  | parseFail
  | notArray
  | array (elems : List JElem)
deriving DecidableEq, Repr

/-- `callGemini`'s returned fact list (part_008 lines 100-136): failures
yield zero facts; a parsed array is filtered by the basic schema check. -/
def callGemini : GeminiOutcome → List JElem
  | .nonZeroStatus => []
  | .parseFail => []
  | .notArray => []
  | .array l => l.filter keepFact

/-- C7 counterexample: an element with an empty-string key and a null value
survives validation untouched — the claim says empty keys and null values
are filtered out. -/
theorem callGemini_keeps_empty_key_and_null_value :
    callGemini (.array [.obj (.str "") .null]) = [.obj (.str "") .null]
    ∧ ("" : String).length = 0 := by
  exact ⟨rfl, rfl⟩

/-- C7 amended: an element survives the extractor's parsing and validation
exactly when it is truthy, its `key` is of string type (empty or
out-of-grammar strings included), and its `value` is not `undefined`
(`null` included); no category-grammar or non-emptiness check is applied. -/
theorem callGemini_validation (l : List JElem) (e : JElem) :
    (e ∈ callGemini (.array l) ↔ e ∈ l ∧ keepFact e = true)
    ∧ (∀ k v, keepFact (.obj k v) = true ↔ (∃ s, k = .str s) ∧ v ≠ .undef) := by
  constructor
  · exact List.mem_filter
  · intro k v
    cases k <;> cases v <;> simp [keepFact]

/-- Witness for C7 at the concrete degenerate element. -/
theorem callGemini_validation_witness :
    (JElem.obj (.str "") .null) ∈ callGemini (.array [.obj (.str "") .null]) ∧
    keepFact (.obj (.str "") .null) = true :=
  ⟨(callGemini_validation [.obj (.str "") .null] (.obj (.str "") .null)).1.mpr
      ⟨List.mem_singleton.mpr rfl, by decide⟩,
   ((callGemini_validation [] .falsy).2 (.str "") .null).mpr ⟨⟨"", rfl⟩, by decide⟩⟩

/-- Split a character list on every dot (JS `split('.')`, empty segments
preserved). -/
def splitDots : List Char → List (List Char)
  | [] => [[]]
  | c :: rest =>
    let r := splitDots rest
    if c = '.' then [] :: r
    else
      match r with
      | [] => [[c]]
      | h :: t => (c :: h) :: t

/-- `extractErrorType` (extract-instincts.js lines 58-61):
`parts.length >= 3 ? parts[2] : 'generic'`. -/
def extractErrorType (caseKey : String) : String :=
  let parts := splitDots caseKey.toList
  if 3 ≤ parts.length then String.mk (parts.getD 2 []) else "generic"

/-- An active `agent.case.*` row as `loadAgentMemory` decodes it: the key
plus the `solution.tools` list when the stored JSON has one (`none` models
a missing or unparseable solution). -/
structure AgentCase where
  key : String
  tools : Option (List String)
deriving DecidableEq, Repr

/-- An `agent.instinct.error.*` record; the prose `trigger`/`action`
fields are not modelled — the claims concern key, confidence, evidence
count and common tools. -/
structure Instinct where
  key : String
  confidence : ℚ
  evidence_count : Nat
  common_tools : List String
deriving DecidableEq, Repr

/-- `calculateConfidence` (extract-instincts.js lines 66-73). -/
def calculateConfidence (count : Nat) : ℚ :=
  if 10 ≤ count then 9/10
  else if 7 ≤ count then 8/10
  else if 5 ≤ count then 7/10
  else if 3 ≤ count then 6/10
  else if 2 ≤ count then 5/10
  else 4/10

/-- Append a case to its error-type group (JS object insertion order). -/
def addCase (t : String) (c : AgentCase) :
    List (String × List AgentCase) → List (String × List AgentCase)
  | [] => [(t, [c])]
  | (k, g) :: rest =>
    if k == t then (k, g ++ [c]) :: rest else (k, g) :: addCase t c rest

/-- The grouping loop of `extractInstinctsFromCases`. -/
def groupCasesByType (cases : List AgentCase) : List (String × List AgentCase) :=
  cases.foldl (fun acc c => addCase (extractErrorType c.key) c acc) []

/-- Increment a tool's tally (`toolCounts[tool] = (toolCounts[tool] || 0) + 1`). -/
def bumpTool (t : String) : List (String × Nat) → List (String × Nat)
  | [] => [(t, 1)]
  | (k, n) :: rest =>
    if k == t then (k, n + 1) :: rest else (k, n) :: bumpTool t rest

/-- The per-group tool tally of `extractInstinctsFromCases`. -/
def toolCounts (g : List AgentCase) : List (String × Nat) :=
  g.foldl (fun acc c =>
    match c.tools with
    | some ts => ts.foldl (fun a t => bumpTool t a) acc
    | none => acc) []

/-- The instinct emitted for one error-type group of size ≥ 2: common tools
are those tallied at least `Math.ceil(group.length / 2)` times. -/
def mkErrorInstinct (errorType : String) (g : List AgentCase) : Instinct :=
  ⟨"agent.instinct.error." ++ errorType,
   calculateConfidence g.length,
   g.length,
   ((toolCounts g).filter (fun kv => (g.length + 1) / 2 ≤ kv.2)).map Prod.fst⟩

/-- `extractInstinctsFromCases` (extract-instincts.js lines 78-141): group
the cases by error type and emit one instinct per group of at least two. -/
def extractInstinctsFromCases (cases : List AgentCase) : List Instinct :=
  (groupCasesByType cases).filterMap (fun kg =>
    if kg.2.length < 2 then none else some (mkErrorInstinct kg.1 kg.2))

/-- The group entries stored under error type `t`. -/
def entriesFor (t : String) (l : List (String × List AgentCase)) :
    List (String × List AgentCase) :=
  l.filter (fun kg => kg.1 == t)

/-- Unfolding `entriesFor` over a cons cell. -/
theorem entriesFor_cons (t : String) (k : String) (g : List AgentCase)
    (rest : List (String × List AgentCase)) :
    entriesFor t ((k, g) :: rest)
      = if k == t then (k, g) :: entriesFor t rest else entriesFor t rest := by
  unfold entriesFor
  rw [List.filter_cons]

/-- `entriesFor` of the empty list. -/
theorem entriesFor_nil (t : String) : entriesFor t [] = [] := rfl

/-- `addCase` under a fresh type adds a singleton group. -/
theorem addCase_entriesFor_self_none {t : String} {c : AgentCase}
    {l : List (String × List AgentCase)} (h : entriesFor t l = []) :
    entriesFor t (addCase t c l) = [(t, [c])] := by
  induction l with
  | nil => simp [entriesFor, addCase]
  | cons kg rest ih =>
    obtain ⟨k, g⟩ := kg
    rw [entriesFor_cons] at h
    by_cases hk : (k == t) = true
    · rw [if_pos hk] at h
      simp at h
    · rw [if_neg hk] at h
      unfold addCase
      rw [if_neg hk, entriesFor_cons, if_neg hk]
      exact ih h

/-- `addCase` under an existing type appends to that group. -/
theorem addCase_entriesFor_self_some {t : String} {c : AgentCase}
    {l : List (String × List AgentCase)} {g : List AgentCase}
    (h : entriesFor t l = [(t, g)]) :
    entriesFor t (addCase t c l) = [(t, g ++ [c])] := by
  induction l with
  | nil => rw [entriesFor_nil] at h; exact absurd h (by simp)
  | cons kg rest ih =>
    obtain ⟨k, g2⟩ := kg
    rw [entriesFor_cons] at h
    by_cases hk : (k == t) = true
    · rw [if_pos hk] at h
      rw [List.cons_eq_cons] at h
      obtain ⟨h1, h2⟩ := h
      have hkt : k = t := by simpa using hk
      have hg : g2 = g := by
        have := (Prod.mk.injEq k g2 t g).mp h1
        exact this.2
      unfold addCase
      rw [if_pos hk, entriesFor_cons, if_pos hk, h2, hkt, hg]
    · rw [if_neg hk] at h
      unfold addCase
      rw [if_neg hk, entriesFor_cons, if_neg hk]
      exact ih h

/-- `addCase` under a different type leaves `t`'s entries unchanged. -/
theorem addCase_entriesFor_ne {s t : String} {c : AgentCase}
    {l : List (String × List AgentCase)} (h : s ≠ t) :
    entriesFor t (addCase s c l) = entriesFor t l := by
  induction l with
  | nil =>
    unfold addCase
    rw [entriesFor_cons, entriesFor_nil, if_neg (by simpa using h)]
  | cons kg rest ih =>
    obtain ⟨k, g⟩ := kg
    unfold addCase
    by_cases hk : (k == s) = true
    · rw [if_pos hk]
      have hkt : (k == t) = false := by
        have hks : k = s := by simpa using hk
        subst hks
        simpa using h
      rw [entriesFor_cons, entriesFor_cons]
      simp [hkt]
    · rw [if_neg hk]
      rw [entriesFor_cons, entriesFor_cons]
      by_cases hkt : (k == t) = true
      · rw [if_pos hkt, if_pos hkt, ih]
      · rw [if_neg hkt, if_neg hkt]
        exact ih

/-- Folding the grouping step accumulates, for each type `t`, exactly the
sublist of cases whose key classifies to `t`. -/
theorem groupFold_entriesFor (cs : List AgentCase) :
    ∀ (acc : List (String × List AgentCase)) (t : String),
      (entriesFor t acc = [] →
        entriesFor t (cs.foldl (fun a c => addCase (extractErrorType c.key) c a) acc)
          = (if cs.filter (fun c => extractErrorType c.key == t) = [] then []
             else [(t, cs.filter (fun c => extractErrorType c.key == t))])) ∧
      (∀ g, entriesFor t acc = [(t, g)] →
        entriesFor t (cs.foldl (fun a c => addCase (extractErrorType c.key) c a) acc)
          = [(t, g ++ cs.filter (fun c => extractErrorType c.key == t))]) := by
  induction cs with
  | nil =>
    intro acc t
    constructor
    · intro h
      simpa using h
    · intro g h
      simpa using h
  | cons c rest ih =>
    intro acc t
    rw [List.foldl_cons, List.filter_cons]
    by_cases het : (extractErrorType c.key == t) = true
    · have hett : extractErrorType c.key = t := by simpa using het
      rw [if_pos het]
      constructor
      · intro h
        have hacc : entriesFor t (addCase (extractErrorType c.key) c acc) = [(t, [c])] := by
          rw [hett]
          exact addCase_entriesFor_self_none h
        have := (ih (addCase (extractErrorType c.key) c acc) t).2 [c] hacc
        rw [this]
        rw [if_neg (by simp)]
        rfl
      · intro g h
        have hacc : entriesFor t (addCase (extractErrorType c.key) c acc) = [(t, g ++ [c])] := by
          rw [hett]
          exact addCase_entriesFor_self_some h
        have := (ih (addCase (extractErrorType c.key) c acc) t).2 (g ++ [c]) hacc
        rw [this]
        rw [List.append_assoc]
        rfl
    · have hett : extractErrorType c.key ≠ t := by simpa using het
      rw [if_neg het]
      constructor
      · intro h
        have hacc : entriesFor t (addCase (extractErrorType c.key) c acc) = [] := by
          rw [addCase_entriesFor_ne hett]
          exact h
        exact (ih (addCase (extractErrorType c.key) c acc) t).1 hacc
      · intro g h
        have hacc : entriesFor t (addCase (extractErrorType c.key) c acc) = [(t, g)] := by
          rw [addCase_entriesFor_ne hett]
          exact h
        exact (ih (addCase (extractErrorType c.key) c acc) t).2 g hacc

/-- The error-type groups hold exactly the matching cases: for each type
`t`, the group list contains one entry when some case classifies to `t`,
holding precisely those cases in order, and no entry otherwise. -/
theorem groupCasesByType_entriesFor (cases : List AgentCase) (t : String) :
    entriesFor t (groupCasesByType cases)
      = (if cases.filter (fun c => extractErrorType c.key == t) = [] then []
         else [(t, cases.filter (fun c => extractErrorType c.key == t))]) :=
  (groupFold_entriesFor cases [] t).1 (entriesFor_nil t)

/-- The tally stored for a tool (`toolCounts[tool] || 0`). -/
def lookupCount (l : List (String × Nat)) (t : String) : Nat :=
  match l.find? (fun kv => kv.1 == t) with
  | some kv => kv.2
  | none => 0

/-- Bumping a tool increments its tally. -/
theorem bumpTool_lookup_self (t : String) (l : List (String × Nat)) :
    lookupCount (bumpTool t l) t = lookupCount l t + 1 := by
  induction l with
  | nil => simp [bumpTool, lookupCount]
  | cons kv rest ih =>
    obtain ⟨k, n⟩ := kv
    unfold bumpTool
    by_cases hk : (k == t) = true
    · rw [if_pos hk]
      unfold lookupCount
      rw [List.find?_cons_of_pos (p := fun kv : String × Nat => kv.1 == t) _ hk,
          List.find?_cons_of_pos (p := fun kv : String × Nat => kv.1 == t) _ hk]
    · rw [if_neg hk]
      unfold lookupCount
      rw [List.find?_cons_of_neg (p := fun kv : String × Nat => kv.1 == t) _ (by simpa using hk),
          List.find?_cons_of_neg (p := fun kv : String × Nat => kv.1 == t) _ (by simpa using hk)]
      exact ih

/-- Bumping a different tool leaves a tally unchanged. -/
theorem bumpTool_lookup_ne {s t : String} (h : s ≠ t) (l : List (String × Nat)) :
    lookupCount (bumpTool s l) t = lookupCount l t := by
  induction l with
  | nil =>
    unfold bumpTool lookupCount
    rw [List.find?_cons_of_neg (p := fun kv : String × Nat => kv.1 == t) _ (by simpa using h)]
  | cons kv rest ih =>
    obtain ⟨k, n⟩ := kv
    unfold bumpTool
    by_cases hk : (k == s) = true
    · rw [if_pos hk]
      have hks : k = s := by simpa using hk
      unfold lookupCount
      by_cases hkt : (k == t) = true
      · exact absurd (by simpa using hkt : k = t) (hks ▸ h)
      · rw [List.find?_cons_of_neg (p := fun kv : String × Nat => kv.1 == t) _ (by simpa using hkt),
            List.find?_cons_of_neg (p := fun kv : String × Nat => kv.1 == t) _ (by simpa using hkt)]
    · rw [if_neg hk]
      unfold lookupCount
      by_cases hkt : (k == t) = true
      · rw [List.find?_cons_of_pos (p := fun kv : String × Nat => kv.1 == t) _ hkt,
            List.find?_cons_of_pos (p := fun kv : String × Nat => kv.1 == t) _ hkt]
      · rw [List.find?_cons_of_neg (p := fun kv : String × Nat => kv.1 == t) _ (by simpa using hkt),
            List.find?_cons_of_neg (p := fun kv : String × Nat => kv.1 == t) _ (by simpa using hkt)]
        exact ih

/-- Folding a tool list over `bumpTool` adds each tool's multiplicity. -/
theorem bumpFold_lookup (ts : List String) :
    ∀ (acc : List (String × Nat)) (t : String),
      lookupCount (ts.foldl (fun a x => bumpTool x a) acc) t
        = lookupCount acc t + ts.count t := by
  induction ts with
  | nil => intro acc t; simp
  | cons x rest ih =>
    intro acc t
    rw [List.foldl_cons]
    rw [ih (bumpTool x acc) t]
    by_cases hx : x = t
    · subst hx
      rw [bumpTool_lookup_self]
      rw [List.count_cons_self]
      omega
    · rw [bumpTool_lookup_ne hx]
      rw [List.count_cons_of_ne (fun hne => hx hne.symm)]

/-- The group tally of a tool is the total multiplicity over the cases. -/
theorem toolCounts_lookup (g : List AgentCase) (t : String) :
    lookupCount (toolCounts g) t
      = (g.map (fun c => (c.tools.getD []).count t)).sum := by
  suffices h : ∀ acc, lookupCount (g.foldl (fun acc c =>
      match c.tools with
      | some ts => ts.foldl (fun a x => bumpTool x a) acc
      | none => acc) acc) t
      = lookupCount acc t + (g.map (fun c => (c.tools.getD []).count t)).sum by
    have := h []
    unfold toolCounts
    rw [this]
    simp [lookupCount]
  induction g with
  | nil => intro acc; simp
  | cons c rest ih =>
    intro acc
    rw [List.foldl_cons, List.map_cons, List.sum_cons]
    cases hc : c.tools with
    | none =>
      simp only [hc]
      rw [ih acc]
      simp [hc]
    | some ts =>
      simp only [hc]
      rw [ih (ts.foldl (fun a x => bumpTool x a) acc)]
      rw [bumpFold_lookup]
      simp only [hc, Option.getD_some]
      omega

/-- A fold preserves any step-invariant property of the accumulator. -/
theorem foldl_preserves {α β : Type} (P : α → Prop) (step : α → β → α)
    (hstep : ∀ a b, P a → P (step a b)) :
    ∀ (l : List β) (a : α), P a → P (l.foldl step a) := by
  intro l
  induction l with
  | nil => intro a ha; exact ha
  | cons b rest ih => intro a ha; exact ih (step a b) (hstep a b ha)

/-- `bumpTool` leaves the key list unchanged or appends the fresh key. -/
theorem bumpTool_keys (t : String) (l : List (String × Nat)) :
    (bumpTool t l).map Prod.fst = l.map Prod.fst
    ∨ ((bumpTool t l).map Prod.fst = l.map Prod.fst ++ [t] ∧ t ∉ l.map Prod.fst) := by
  induction l with
  | nil =>
    right
    constructor
    · rfl
    · simp
  | cons kv rest ih =>
    obtain ⟨k, n⟩ := kv
    unfold bumpTool
    by_cases hk : (k == t) = true
    · left
      rw [if_pos hk]
      simp
    · rw [if_neg hk]
      rcases ih with h | ⟨h1, h2⟩
      · left
        simp only [List.map_cons]
        rw [h]
      · right
        constructor
        · simp only [List.map_cons]
          rw [h1]
          rfl
        · simp only [List.map_cons, List.mem_cons]
          push_neg
          refine ⟨?_, h2⟩
          intro he
          exact absurd (by simp [he]) hk

/-- `bumpTool` preserves distinctness of the tallied keys. -/
theorem bumpTool_keys_nodup {t : String} {l : List (String × Nat)}
    (h : (l.map Prod.fst).Nodup) : ((bumpTool t l).map Prod.fst).Nodup := by
  rcases bumpTool_keys t l with hk | ⟨hk, hmem⟩
  · rw [hk]; exact h
  · rw [hk]
    rw [List.nodup_append]
    exact ⟨h, List.nodup_singleton t, by simpa using hmem⟩

/-- The tool tally never stores a key twice. -/
theorem toolCounts_keys_nodup (g : List AgentCase) :
    ((toolCounts g).map Prod.fst).Nodup := by
  unfold toolCounts
  refine foldl_preserves (fun l : List (String × Nat) => (l.map Prod.fst).Nodup) _ ?_ g [] (by simp)
  intro a c ha
  cases hc : c.tools with
  | none => simpa [hc] using ha
  | some ts =>
    simp only [hc]
    exact foldl_preserves (fun l : List (String × Nat) => (l.map Prod.fst).Nodup)
      (fun a x => bumpTool x a) (fun a x hx => bumpTool_keys_nodup hx) ts a ha

/-- With distinct keys, each stored pair's tally is what lookup returns. -/
theorem mem_assoc_lookup {l : List (String × Nat)}
    (hnd : (l.map Prod.fst).Nodup) {kv : String × Nat} (h : kv ∈ l) :
    lookupCount l kv.1 = kv.2 := by
  induction l with
  | nil => cases h
  | cons kv2 rest ih =>
    obtain ⟨k, n⟩ := kv2
    rw [List.map_cons, List.nodup_cons] at hnd
    rcases List.mem_cons.mp h with h1 | h1
    · subst h1
      unfold lookupCount
      rw [List.find?_cons_of_pos (p := fun kv2 : String × Nat => kv2.1 == (k, n).1) _ (by simp)]
    · have hne : (k == kv.1) = false := by
        have : kv.1 ∈ rest.map Prod.fst := List.mem_map_of_mem Prod.fst h1
        have hk : k ≠ kv.1 := fun he => hnd.1 (he ▸ this)
        simpa using hk
      unfold lookupCount
      rw [List.find?_cons_of_neg (p := fun kv2 : String × Nat => kv2.1 == kv.1) _ (by simp [hne])]
      exact ih hnd.2 h1

/-- A positive tally means the tool is stored, with that tally. -/
theorem lookup_pos_mem {l : List (String × Nat)} {t : String}
    (h : 0 < lookupCount l t) :
    ∃ kv ∈ l, kv.1 = t ∧ kv.2 = lookupCount l t := by
  unfold lookupCount at h ⊢
  cases hf : l.find? (fun kv => kv.1 == t) with
  | none => rw [hf] at h; cases h
  | some kv =>
    refine ⟨kv, List.mem_of_find?_eq_some hf, ?_, ?_⟩
    · have := List.find?_some hf
      simpa using this
    · simp only [hf]

/-- A tool's tally over a group counts the cases using it, provided no case
lists a tool twice (which the extractor guarantees by deduplicating with a
`Set`). -/
theorem toolCounts_lookup_cases (g : List AgentCase) (tool : String)
    (hnd : ∀ c ∈ g, (c.tools.getD []).Nodup) :
    lookupCount (toolCounts g) tool
      = (g.filter (fun c => (c.tools.getD []).contains tool)).length := by
  rw [toolCounts_lookup]
  induction g with
  | nil => rfl
  | cons c rest ih =>
    rw [List.map_cons, List.sum_cons, List.filter_cons]
    have hrest := ih (fun c2 hc2 => hnd c2 (List.mem_cons_of_mem _ hc2))
    by_cases hc : ((c.tools.getD []).contains tool) = true
    · rw [if_pos hc]
      have h1 : (c.tools.getD []).count tool = 1 := by
        cases hts : c.tools with
        | none => rw [hts] at hc; simp at hc
        | some ts =>
          have hnodup : ts.Nodup := by
            have := hnd c (List.mem_cons_self _ _)
            rw [hts] at this
            simpa using this
          rw [hts] at hc
          simp only [Option.getD_some] at hc ⊢
          exact List.count_eq_one_of_mem hnodup (List.elem_iff.mp hc)
      rw [h1, hrest]
      simp only [List.length_cons]
      omega
    · rw [if_neg hc]
      have h0 : (c.tools.getD []).count tool = 0 := by
        cases hts : c.tools with
        | none => rfl
        | some ts =>
          rw [hts] at hc
          simp only [Option.getD_some] at hc ⊢
          exact List.count_eq_zero_of_not_mem (fun hm => hc (List.elem_iff.mpr hm))
      rw [h0, hrest]
      omega

/-- Membership in the common-tools list is exactly the majority test on the
number of cases using the tool. -/
theorem common_tools_mem_iff (g : List AgentCase) (tool : String)
    (hnd : ∀ c ∈ g, (c.tools.getD []).Nodup)
    (hth : 1 ≤ (g.length + 1) / 2) :
    tool ∈ ((toolCounts g).filter (fun kv => (g.length + 1) / 2 ≤ kv.2)).map Prod.fst
      ↔ (g.length + 1) / 2 ≤ (g.filter (fun c => (c.tools.getD []).contains tool)).length := by
  constructor
  · intro h
    rw [List.mem_map] at h
    obtain ⟨kv, hkv, hfst⟩ := h
    rw [List.mem_filter] at hkv
    obtain ⟨hkvmem, hkvcond⟩ := hkv
    have hl := mem_assoc_lookup (toolCounts_keys_nodup g) hkvmem
    rw [hfst] at hl
    rw [← toolCounts_lookup_cases g tool hnd, hl]
    simpa using hkvcond
  · intro h
    have hpos : 0 < lookupCount (toolCounts g) tool := by
      rw [toolCounts_lookup_cases g tool hnd]
      omega
    obtain ⟨kv, hkvmem, hfst, hsnd⟩ := lookup_pos_mem hpos
    rw [List.mem_map]
    refine ⟨kv, ?_, hfst⟩
    rw [List.mem_filter]
    refine ⟨hkvmem, ?_⟩
    have hle : (g.length + 1) / 2 ≤ kv.2 := by
      rw [hsnd, toolCounts_lookup_cases g tool hnd]
      exact h
    simpa using hle

/-- Appending to a fixed string on the left preserves `==` verbatim. -/
theorem beq_append_left_cancel (p a b : String) : (p ++ a == p ++ b) = (a == b) := by
  cases hab : a == b with
  | true =>
    have : a = b := by simpa using hab
    subst this
    simp
  | false =>
    have hne : a ≠ b := by simpa using hab
    have hpe : p ++ a ≠ p ++ b := by
      intro he
      apply hne
      have hd := congrArg String.data he
      rw [String.data_append, String.data_append] at hd
      exact String.ext (List.append_cancel_left hd)
    simpa using hpe

/-- Filtering the emitted instincts by the key for type `t` is the same as
emitting from the group entries for `t` alone. -/
theorem filter_instincts_by_key (l : List (String × List AgentCase)) (t : String) :
    (l.filterMap (fun kg =>
        if kg.2.length < 2 then none else some (mkErrorInstinct kg.1 kg.2))).filter
        (fun i => i.key == "agent.instinct.error." ++ t)
      = (entriesFor t l).filterMap (fun kg =>
          if kg.2.length < 2 then none else some (mkErrorInstinct kg.1 kg.2)) := by
  induction l with
  | nil => rfl
  | cons kg rest ih =>
    obtain ⟨k, g⟩ := kg
    by_cases hlen : g.length < 2
    · have hnone : (fun kg : String × List AgentCase =>
          if kg.2.length < 2 then none else some (mkErrorInstinct kg.1 kg.2)) (k, g) = none := by
        simp [hlen]
      rw [List.filterMap_cons_none (f := fun kg : String × List AgentCase => if kg.2.length < 2 then none else some (mkErrorInstinct kg.1 kg.2)) hnone, entriesFor_cons]
      by_cases hk : (k == t) = true
      · rw [if_pos hk, List.filterMap_cons_none (f := fun kg : String × List AgentCase => if kg.2.length < 2 then none else some (mkErrorInstinct kg.1 kg.2)) hnone]
        exact ih
      · rw [if_neg hk]
        exact ih
    · have hsome : (fun kg : String × List AgentCase =>
          if kg.2.length < 2 then none else some (mkErrorInstinct kg.1 kg.2)) (k, g)
          = some (mkErrorInstinct k g) := by
        simp [hlen]
      rw [List.filterMap_cons_some (f := fun kg : String × List AgentCase => if kg.2.length < 2 then none else some (mkErrorInstinct kg.1 kg.2)) hsome, List.filter_cons, entriesFor_cons]
      have hkey : ((mkErrorInstinct k g).key == "agent.instinct.error." ++ t) = (k == t) := by
        unfold mkErrorInstinct
        exact beq_append_left_cancel "agent.instinct.error." k t
      rw [hkey]
      by_cases hk : (k == t) = true
      · rw [if_pos hk, if_pos hk, List.filterMap_cons_some (f := fun kg : String × List AgentCase => if kg.2.length < 2 then none else some (mkErrorInstinct kg.1 kg.2)) hsome, ih]
      · rw [if_neg hk, if_neg hk]
        exact ih

/-- C8: for every case set and error type `t`, the extractor emits exactly
one `agent.instinct.error.<t>` when the `t` group has at least two cases
and none otherwise; the instinct's evidence count is the group size, its
confidence is the claimed step function of that size, and its common tools
are exactly the tools used by at least `⌈n/2⌉` of the group's cases (tools
deduplicated per case, as the case extractor guarantees). -/
theorem extractInstinctsFromCases_per_group (cases : List AgentCase) (t : String) :
    ((extractInstinctsFromCases cases).filter
        (fun i => i.key == "agent.instinct.error." ++ t))
      = (if 2 ≤ (cases.filter (fun c => extractErrorType c.key == t)).length
         then [mkErrorInstinct t (cases.filter (fun c => extractErrorType c.key == t))]
         else [])
    ∧ (∀ g : List AgentCase,
        (mkErrorInstinct t g).evidence_count = g.length ∧
        (mkErrorInstinct t g).confidence = calculateConfidence g.length)
    ∧ (∀ n : Nat,
        (n = 2 → calculateConfidence n = 1/2) ∧
        (3 ≤ n ∧ n ≤ 4 → calculateConfidence n = 3/5) ∧
        (5 ≤ n ∧ n ≤ 6 → calculateConfidence n = 7/10) ∧
        (7 ≤ n ∧ n ≤ 9 → calculateConfidence n = 4/5) ∧
        (10 ≤ n → calculateConfidence n = 9/10))
    ∧ (∀ (g : List AgentCase) (tool : String),
        (∀ c ∈ g, (c.tools.getD []).Nodup) →
        1 ≤ g.length →
        (tool ∈ (mkErrorInstinct t g).common_tools ↔
          (g.length + 1) / 2 ≤
            (g.filter (fun c => (c.tools.getD []).contains tool)).length)) := by
  refine ⟨?_, ?_, ?_, ?_⟩
  · unfold extractInstinctsFromCases
    rw [filter_instincts_by_key, groupCasesByType_entriesFor]
    by_cases hemp : cases.filter (fun c => extractErrorType c.key == t) = []
    · rw [if_pos hemp]
      rw [if_neg (by rw [hemp]; simp)]
      rfl
    · rw [if_neg hemp]
      by_cases hlen : (cases.filter (fun c => extractErrorType c.key == t)).length < 2
      · rw [if_neg (by omega)]
        rw [List.filterMap_cons_none (f := fun kg : String × List AgentCase =>
          if kg.2.length < 2 then none else some (mkErrorInstinct kg.1 kg.2)) (by simp [hlen])]
        rfl
      · rw [if_pos (by omega)]
        rw [List.filterMap_cons_some (f := fun kg : String × List AgentCase =>
          if kg.2.length < 2 then none else some (mkErrorInstinct kg.1 kg.2))
          (b := mkErrorInstinct t (cases.filter (fun c => extractErrorType c.key == t)))
          (by simp [hlen])]
        rfl
  · intro g
    exact ⟨rfl, rfl⟩
  · intro n
    refine ⟨?_, ?_, ?_, ?_, ?_⟩
    · intro h
      subst h
      norm_num [calculateConfidence]
    · intro h
      unfold calculateConfidence
      rw [if_neg (by omega), if_neg (by omega), if_neg (by omega), if_pos (by omega)]
      norm_num
    · intro h
      unfold calculateConfidence
      rw [if_neg (by omega), if_neg (by omega), if_pos (by omega)]
    · intro h
      unfold calculateConfidence
      rw [if_neg (by omega), if_pos (by omega)]
      norm_num
    · intro h
      unfold calculateConfidence
      rw [if_pos (by omega)]
  · intro g tool hnd hg
    exact common_tools_mem_iff g tool hnd (by omega)

/-- Three test-failure cases solved with Bash (spec scenario 5). -/
def c8cases : List AgentCase :=
  [⟨"agent.case.test_failure.a1b2", some ["Bash"]⟩,
   ⟨"agent.case.test_failure.c3d4", some ["Bash"]⟩,
   ⟨"agent.case.test_failure.e5f6", some ["Bash"]⟩]

/-- Witness for C8: the three test-failure cases produce exactly one
`agent.instinct.error.test_failure`, its confidence step at n = 3 is 0.6,
and Bash passes the majority test. -/
theorem extractInstinctsFromCases_per_group_witness :
    ((extractInstinctsFromCases c8cases).filter
        (fun i => i.key == "agent.instinct.error." ++ "test_failure"))
      = [mkErrorInstinct "test_failure"
          (c8cases.filter (fun c => extractErrorType c.key == "test_failure"))]
    ∧ calculateConfidence 3 = 3/5
    ∧ ("Bash" ∈ (mkErrorInstinct "test_failure" c8cases).common_tools ↔
        (c8cases.length + 1) / 2 ≤
          (c8cases.filter (fun c => (c.tools.getD []).contains "Bash")).length) := by
  have h := extractInstinctsFromCases_per_group c8cases "test_failure"
  refine ⟨?_, ?_, ?_⟩
  · have h1 := h.1
    rw [if_pos (by decide)] at h1
    exact h1
  · exact (h.2.2.1 3).2.1 ⟨by omega, by omega⟩
  · exact h.2.2.2 c8cases "Bash" (by decide) (by decide)

/-- A parsed lock record (`{pid, timestamp, session}` — the session tag
plays no role in the gate). -/
structure LockRecord where
  pid : Nat
  timestamp : Int
deriving DecidableEq, Repr

/-- The state of the lock file: missing, unparseable JSON, or a record. -/
inductive LockFile where
  | absent
  | corrupt
  | record (r : LockRecord)
deriving DecidableEq, Repr

/-- `STALE_LOCK_MS` (token-monitor.js): ten minutes. -/
def STALE_LOCK_MS : Int := 10 * 60 * 1000

/-- `isLocked` (token-monitor.js lines 117-145), returning the verdict and
the lock file's state afterwards.  `alive p` models `process.kill(p, 0)`
succeeding. -/
def isLocked (now : Int) (alive : Nat → Bool) : LockFile → Bool × LockFile
  | .absent => (false, .absent)
  | .corrupt => (false, .absent)
  | .record r =>
    if STALE_LOCK_MS < now - r.timestamp then (false, .absent)
    else if alive r.pid then (true, .record r)
    else (false, .absent)

/-- C9: the gate reports the lock held exactly when a record exists, its
age does not exceed the stale TTL, and the owner pid is alive; in every
other case (stale, dead owner, unparseable) the record is removed, and a
held lock is left in place. -/
theorem isLocked_spec (now : Int) (alive : Nat → Bool) (f : LockFile) :
    ((isLocked now alive f).1 = true ↔
      ∃ r, f = .record r ∧ now - r.timestamp ≤ STALE_LOCK_MS ∧ alive r.pid = true)
    ∧ ((isLocked now alive f).1 = false → (isLocked now alive f).2 = .absent)
    ∧ ((isLocked now alive f).1 = true → (isLocked now alive f).2 = f) := by
  cases f with
  | absent =>
    refine ⟨?_, fun _ => rfl, ?_⟩
    · simp [isLocked]
    · intro h
      simp [isLocked] at h
  | corrupt =>
    refine ⟨?_, fun _ => rfl, ?_⟩
    · simp [isLocked]
    · intro h
      simp [isLocked] at h
  | record r =>
    unfold isLocked
    dsimp only
    by_cases hst : STALE_LOCK_MS < now - r.timestamp
    · rw [if_pos hst]
      refine ⟨?_, fun _ => rfl, ?_⟩
      · simp only [Bool.false_eq_true, false_iff]
        rintro ⟨r2, hr2, hage, _⟩
        cases hr2
        omega
      · intro h
        simp at h
    · rw [if_neg hst]
      by_cases hal : alive r.pid = true
      · rw [if_pos hal]
        refine ⟨?_, ?_, fun _ => rfl⟩
        · simp only [true_iff]
          exact ⟨r, rfl, by omega, hal⟩
        · intro h
          simp at h
      · rw [if_neg hal]
        refine ⟨?_, fun _ => rfl, ?_⟩
        · simp only [Bool.false_eq_true, false_iff]
          rintro ⟨r2, hr2, _, hal2⟩
          cases hr2
          exact hal hal2
        · intro h
          simp at h

/-- Witness for C9: a fresh record with a live owner is reported held; a
stale record is removed. -/
theorem isLocked_spec_witness :
    (isLocked 2000 (fun p => p == 42) (.record ⟨42, 1000⟩)).1 = true
    ∧ (isLocked 700000 (fun p => p == 42) (.record ⟨42, 0⟩)).2 = .absent := by
  constructor
  · exact (isLocked_spec 2000 (fun p => p == 42) (.record ⟨42, 1000⟩)).1.mpr
      ⟨⟨42, 1000⟩, rfl, by decide, by decide⟩
  · exact (isLocked_spec 700000 (fun p => p == 42) (.record ⟨42, 0⟩)).2.1 (by decide)

/-- A row of a `memory_search` result set (`key, value, start_time`). -/
structure SearchRow where
  key : String
  value : String
  start_time : String
deriving DecidableEq, Repr

/-- JS `String.prototype.startsWith` on the model's strings. -/
def strStartsWith (s p : String) : Bool := p.toList.isPrefixOf s.toList

/-- Substring search over character lists (JS `String.prototype.includes`). -/
def containsSub : List Char → List Char → Bool
  | [], sub => sub.isEmpty
  | c :: rest, sub => sub.isPrefixOf (c :: rest) || containsSub rest sub

/-- JS `includes` on the model's strings. -/
def strIncludes (s sub : String) : Bool := containsSub s.toList sub.toList

/-- The verdict options of `applyVerdict` (verdict.js). -/
structure VerdictOptions where
  sourceVerified : Bool
  subject : Option String
  maxAgeDays : Option ℚ
deriving Repr

/-- The per-row predicate of `applyVerdict` (verdict.js lines 13-36):
`getTime` models `new Date(s).getTime()` and `now` models `Date.now()`;
JS truthiness makes an empty subject, an empty key, an empty start time or
a zero `maxAgeDays` skip the corresponding check. -/
def verdictKeep (getTime : String → Int) (now : Int) (o : VerdictOptions)
    (r : SearchRow) : Bool :=
  if o.sourceVerified && !(r.key == "") && strStartsWith r.key "inferred." then false
  else if (match o.subject with
      | some s => !(s == "") && !(r.key == "") && !(strIncludes r.key s)
      | none => false) then false
  else match o.maxAgeDays with
    | some d =>
      if d ≠ 0 ∧ r.start_time ≠ "" ∧ d < ((now - getTime r.start_time : ℚ) / 86400000)
      then false else true
    | none => true

/-- `applyVerdict` (verdict.js): filter the rows by the verdict predicate. -/
def applyVerdict (getTime : String → Int) (now : Int) (rows : List SearchRow)
    (o : VerdictOptions) : List SearchRow :=
  rows.filter (verdictKeep getTime now o)

/-- Insertion step of the `ORDER BY start_time DESC` sort. -/
def insertByStartDesc (r : SearchRow) : List SearchRow → List SearchRow
  | [] => [r]
  | x :: rest =>
    if strLt x.start_time r.start_time then r :: x :: rest
    else x :: insertByStartDesc r rest

/-- `ORDER BY start_time DESC` over the selected rows. -/
def sortByStartDesc (rows : List SearchRow) : List SearchRow :=
  rows.foldl (fun acc r => insertByStartDesc r acc) []

/-- The `memory_search` tool on a request with no keys, semantic, query or
prefix argument (mcp server lines 109-203): SQL takes the most recent
`lim` active rows first; the verdict filters (when any option is truthy)
and the type-prefix filter run afterwards, over the already-truncated
rows.  `typePrefixes` is the config's `type_mappings[type]` when a type
other than `all` is given. -/
def memory_search_all (db : DB) (lim : Nat) (getTime : String → Int) (now : Int)
    (sourceVerified : Bool) (subject : Option String) (maxAgeDays : Option ℚ)
    (typePrefixes : Option (List String)) : List SearchRow :=
  let rows := (sortByStartDesc ((db.filter (fun r => r.isActive)).map
      (fun r => ⟨r.key, r.value, r.start_time⟩))).take lim
  let doVerdict := sourceVerified
    || (match subject with | some s => !(s == "") | none => false)
    || (match maxAgeDays with | some d => decide (d ≠ 0) | none => false)
  let rows2 := if doVerdict
    then applyVerdict getTime now rows ⟨sourceVerified, subject, maxAgeDays⟩
    else rows
  match typePrefixes with
  | some ps =>
    if !ps.isEmpty then rows2.filter (fun r => ps.any (fun q => strStartsWith r.key q))
    else rows2
  | none => rows2

/-- Three active rows; the most recent is an `inferred.*` row. -/
def c10db : DB :=
  [⟨"inferred.guess", "v0", "mcp:memory_store", "2026-01-03T00:00:00Z", none⟩,
   ⟨"user.name", "Jerry", "session:a", "2026-01-02T00:00:00Z", none⟩,
   ⟨"user.lang", "zh", "session:a", "2026-01-01T00:00:00Z", none⟩]

/-- C10: with `limit 1` and `sourceVerified`, the search returns zero rows
although two active rows satisfy the filter — the SQL LIMIT runs before
the verdict filter, so the truncated window holds only the `inferred.*`
row that the filter then removes. -/
theorem memory_search_limit_before_filters :
    (memory_search_all c10db 1 (fun _ => 0) 0 true none none none).length = 0
    ∧ 2 ≤ ((c10db.filter (fun r => r.isActive)).filter
        (fun r => verdictKeep (fun _ => 0) 0 ⟨true, none, none⟩
          ⟨r.key, r.value, r.start_time⟩)).length
    ∧ (0 : Nat) < 1 := by
  refine ⟨by decide, by decide, by decide⟩
